import Mathlib

/-!
# A verification development for `cache.go`

`cache.go` implements a generic in-memory key/value store with an optional
per-entry deadline and lazy removal of expired entries on read.

## Embedding

* The Go builtin `map[K]Item[V]` is a finite partial function with at most one
  entry per key and no observable order; it is embedded as Mathlib's
  `Finmap`, with `c.items[key] = item` as `Finmap.insert`, `delete(c.items, key)`
  as `Finmap.erase`, the comma-ok read `c.items[key]` as `Finmap.lookup`, and
  `len(c.items)` as the number of entries.
* `time.Time` instants are embedded as integers (nanoseconds on the clock's
  timeline) and `time.Duration` as integers (nanoseconds); `Time.Add` is exact
  addition and `Time.Before` is the strict order. The range of `time.Time`
  exceeds the sum of any clock reading and any `int64` duration, so `Add` does
  not wrap around.
* `time.Now()` is an explicit argument `now` of the operations that read the
  clock.
* The receiver `c *Cache[K, V]` is passed explicitly and the updated store is
  returned; the mutex is not part of the sequential model.
* For the locking discipline, the steps that each method makes on the mutex, the
  clock and the map are listed in program order (`Cache.SetSteps`,
  `Cache.GetSteps`, ...), and goroutines interleave their steps on one mutex whose
  `Lock` blocks while it is held (`Sched`).
* The zero value of `V` (`var zero V`) is `default`.
-/

set_option linter.unusedSectionVars false

namespace cache

/-- An instant of the clock, in nanoseconds (`time.Time`). -/
abbrev Time := Int

/-- A signed span of time in nanoseconds (`time.Duration`). -/
abbrev Duration := Int

/-- The instant `t + d` (`time.Time.Add`). -/
def Time.Add (t : Time) (d : Duration) : Time := t + d

/-- Whether the instant `t` is strictly before `u` (`time.Time.Before`). -/
def Time.Before (t u : Time) : Bool := decide (t < u)

/-- A stored association (`type Item[V any] struct`): the payload and an
optional deadline (`expires *time.Time`, `nil` being `none`). -/
structure Item (V : Type) where
  value : V
  expires : Option Time
  deriving DecidableEq

/-- The store (`type Cache[K comparable, V any] struct`): the map of items. -/
structure Cache (K : Type) (V : Type) where
  items : Finmap (fun _ : K => Item V)

instance {K V : Type} [DecidableEq K] [DecidableEq V] : DecidableEq (Cache K V) :=
  fun a b => decidable_of_iff (a.items = b.items)
    (by cases a; cases b; simp)

variable {K V : Type} [DecidableEq K]

/-- The constructor `New`: a store with an empty map. -/
def New : Cache K V :=
  { items := ∅ }

/-- The method `Set`: builds the item, giving it the deadline `now.Add ttl` only
when `ttl > 0`, and assigns it to `key` in the map. -/
def Cache.Set (c : Cache K V) (key : K) (value : V) (ttl : Duration) (now : Time) :
    Cache K V :=
  let item : Item V := { value := value, expires := none }
  let item : Item V :=
    if ttl > 0 then { item with expires := some (Time.Add now ttl) } else item
  { items := c.items.insert key item }

/-- The method `Delete`: removes `key` from the map. -/
def Cache.Delete (c : Cache K V) (key : K) : Cache K V :=
  { items := c.items.erase key }

/-- The test of line 51: `item.expires != nil && item.expires.Before(time.Now())`. -/
def Item.expired (item : Item V) (now : Time) : Bool :=
  match item.expires with
  | none => false
  | some e => Time.Before e now

/-- The method `Get`: the returned pair `(V, bool)` and the store afterwards. -/
def Cache.Get [Inhabited V] (c : Cache K V) (key : K) (now : Time) :
    (V × Bool) × Cache K V :=
  let zero : V := default
  match c.items.lookup key with
  | none => ((zero, false), c)
  | some item =>
    if item.expired now then
      ((zero, false), { items := c.items.erase key })
    else
      ((item.value, true), c)

/-- The method `Keys`: the keys of the map's entries, one per entry; the order of
the returned slice is the map's iteration order, which Go leaves unspecified, so
the result is a sequence up to order. -/
def Cache.Keys (c : Cache K V) : Multiset K :=
  c.items.entries.keys

/-- The method `Len`: `len(c.items)`. -/
def Cache.Len (c : Cache K V) : Nat :=
  Multiset.card c.items.entries

/-- One call made by a client of the store. `Set` and `Get` carry the reading
`now` that their `time.Now()` returns. -/
inductive Call (K : Type) (V : Type) where
  | Set (key : K) (value : V) (ttl : Duration) (now : Time)
  | Delete (key : K)
  | Get (key : K) (now : Time)
  | Keys
  | Len

/-- The store after one call. -/
def Cache.call [Inhabited V] (c : Cache K V) : Call K V → Cache K V
  | Call.Set key value ttl now => c.Set key value ttl now
  | Call.Delete key => c.Delete key
  | Call.Get key now => (c.Get key now).2
  | Call.Keys => c
  | Call.Len => c

/-- The store after a sequence of calls, made one after the other. -/
def Cache.run [Inhabited V] (c : Cache K V) (calls : List (Call K V)) : Cache K V :=
  calls.foldl Cache.call c

/-- Whether the call is a `Set` on `k`. -/
def Call.isSetOf (k : K) : Call K V → Bool
  | Call.Set key _ _ _ => decide (key = k)
  | _ => false

/-- Whether the call is a `Delete` on `k`. -/
def Call.isDeleteOf (k : K) : Call K V → Bool
  | Call.Delete key => decide (key = k)
  | _ => false

/-- Whether the call is a `Get` on `k`. -/
def Call.isGetOf (k : K) : Call K V → Bool
  | Call.Get key _ => decide (key = k)
  | _ => false

/-- The calls `Set(k, v, 0)` made for the pairs `(k, v)` of a list, one after the
other in the order of the list, as the goroutines of the test "concurrent access"
make them in the order in which they take the lock. -/
def setCalls (kvs : List (K × V)) (now : Time) : List (Call K V) :=
  kvs.map fun p => Call.Set p.1 p.2 0 now

/-- Reference store of the refinement claim, `Get`: the result of `Get` on a store
that never prunes, decided by the same test of the deadline; the store is left as
it is. -/
def Cache.GetNoPrune [Inhabited V] (c : Cache K V) (key : K) (now : Time) : V × Bool :=
  match c.items.lookup key with
  | none => (default, false)
  | some item => if item.expired now then (default, false) else (item.value, true)

/-- Reference store of the refinement claim: the store after one call when `Get`
never prunes. -/
def Cache.callNoPrune (c : Cache K V) : Call K V → Cache K V
  | Call.Set key value ttl now => c.Set key value ttl now
  | Call.Delete key => c.Delete key
  | Call.Get _ _ => c
  | Call.Keys => c
  | Call.Len => c

/-- Reference store of the refinement claim: the store after a sequence of calls
when `Get` never prunes. -/
def Cache.runNoPrune (c : Cache K V) (calls : List (Call K V)) : Cache K V :=
  calls.foldl Cache.callNoPrune c

/-- The most recent `Set` or `Delete` on `k` among the calls made so far (the last
call of the list is the latest). -/
def lastWrite (k : K) (calls : List (Call K V)) : Option (Call K V) :=
  calls.reverse.find? fun a => a.isSetOf k || a.isDeleteOf k

/-- The entry that a call assigns to its key: the item of a `Set`, none otherwise. -/
def Call.written : Call K V → Option (Item V)
  | Call.Set _ value ttl now =>
    some { value := value, expires := if ttl > 0 then some (Time.Add now ttl) else none }
  | _ => none

/-- Reference result of the refinement claim, from the history of calls: `(v, true)`
when the most recent `Set` or `Delete` on `k` is a `Set(k, v, ttl)` read at `t0` with
`ttl ≤ 0` or with `t0 + ttl` not before `now`, and the zero value and `false`
otherwise. -/
def refGet [Inhabited V] (calls : List (Call K V)) (k : K) (now : Time) : V × Bool :=
  match lastWrite k calls with
  | some (Call.Set _ v ttl t0) =>
    if ttl > 0 ∧ Time.Before (Time.Add t0 ttl) now = true then (default, false) else (v, true)
  | _ => (default, false)

/-- The clock reading at which a call is made, for the calls that carry one. -/
def Call.reading : Call K V → Option Time
  | Call.Set _ _ _ now => some now
  | Call.Get _ now => some now
  | _ => none

/-- The clock readings of a sequence of calls, in the order of the calls. -/
def readings (calls : List (Call K V)) : List Time :=
  calls.filterMap Call.reading

/-- A step of a method of the store on the mutex `c.mtx`, the clock or the map
`c.items`, the other statements of the methods being local to the caller. -/
inductive Step where
  /-- The call `time.Now()`. -/
  | now
  /-- The call `c.mtx.Lock()`. -/
  | lock
  /-- The deferred `c.mtx.Unlock()`, run when the method returns. -/
  | unlock
  /-- The read `item, exists := c.items[key]`. -/
  | read
  /-- The assignment `c.items[key] = item`. -/
  | write
  /-- The removal `delete(c.items, key)`. -/
  | delete
  /-- The count `len(c.items)`. -/
  | len
  /-- The loop `for key := range c.items`. -/
  | range
  deriving DecidableEq

/-- Whether the step reads or changes the map `c.items`. -/
def Step.isAccess : Step → Bool
  | Step.read => true
  | Step.write => true
  | Step.delete => true
  | Step.len => true
  | Step.range => true
  | _ => false

/-- The steps of `Set`, in program order: the clock is read (when `ttl > 0`) while
the item is built, on lines 25 to 31, and then the mutex is taken, on line 32. -/
def Cache.SetSteps (ttl : Duration) : List Step :=
  (if ttl > 0 then [Step.now] else []) ++ [Step.lock, Step.write, Step.unlock]

/-- The steps of `Delete`, in program order. -/
def Cache.DeleteSteps : List Step :=
  [Step.lock, Step.delete, Step.unlock]

/-- The steps of `Get`, in program order, on the exit path that it takes on the
store `c` when the clock shows `now`: the clock is read only for an entry with a
deadline, and the entry is removed only when the deadline has passed. -/
def Cache.GetSteps (c : Cache K V) (key : K) (now : Time) : List Step :=
  match c.items.lookup key with
  | none => [Step.lock, Step.read, Step.unlock]
  | some item =>
    match item.expires with
    | none => [Step.lock, Step.read, Step.unlock]
    | some e =>
      if Time.Before e now then
        [Step.lock, Step.read, Step.now, Step.delete, Step.unlock]
      else
        [Step.lock, Step.read, Step.now, Step.unlock]

/-- The steps of `Keys`, in program order. -/
def Cache.KeysSteps : List Step :=
  [Step.lock, Step.len, Step.range, Step.unlock]

/-- The steps of `Len`, in program order. -/
def Cache.LenSteps : List Step :=
  [Step.lock, Step.len, Step.unlock]

/-- The steps of a call made when the store is `c`. -/
def Cache.callSteps (c : Cache K V) : Call K V → List Step
  | Call.Set _ _ ttl _ => Cache.SetSteps ttl
  | Call.Delete _ => Cache.DeleteSteps
  | Call.Get key now => c.GetSteps key now
  | Call.Keys => Cache.KeysSteps
  | Call.Len => Cache.LenSteps

/-- The steps of a goroutine that makes the given calls one after the other, each
paired with the store that it finds. -/
def programOf (calls : List (Cache K V × Call K V)) : List Step :=
  calls.flatMap fun p => p.1.callSteps p.2

/-- Whether the caller holds the mutex after a step that it makes holding it
(`held = true`) or not, or `none` when the step is out of order: a `Lock` by the
holder, an `Unlock` by a caller that does not hold the mutex, or an access to the
map without the mutex. -/
def Step.after (held : Bool) : Step → Option Bool
  | Step.lock => if held then none else some true
  | Step.unlock => if held then some false else none
  | Step.now => some held
  | _ => if held then some true else none

/-- Whether the steps are in order for a caller that starts holding the mutex or
not (`held`), and end with the mutex released. -/
def wellLocked : Bool → List Step → Bool
  | held, [] => !held
  | held, a :: rest =>
    match a.after held with
    | some h => wellLocked h rest
    | none => false

/-- Whether the steps start with `Lock`, end with `Unlock`, and have neither in
between: the mutex is held from the first step to the last. -/
def lockedThroughout : List Step → Bool
  | Step.lock :: rest =>
    rest.getLast? = some Step.unlock &&
      rest.dropLast.all fun a => a != Step.lock && a != Step.unlock
  | _ => false

/-- Goroutines that run concurrently on one store: the state of the mutex, and for
each goroutine whether it is between a `Lock` and the `Unlock` that follows it, and
the steps that it has yet to make. -/
structure Sched where
  locked : Bool
  goroutines : Nat → Bool × List Step

/-- The goroutines before any step is made. -/
def Sched.init (programs : Nat → List Step) : Sched :=
  { locked := false, goroutines := fun i => (false, programs i) }

/-- The goroutine `i` is scheduled: it makes its next step, unless that step is a
`Lock` on a locked mutex, on which it blocks, or it has no step left. -/
def Sched.step (s : Sched) (i : Nat) : Sched :=
  match s.goroutines i with
  | (_, []) => s
  | (inside, a :: rest) =>
    match a with
    | Step.lock =>
      if s.locked then s
      else { locked := true, goroutines := Function.update s.goroutines i (true, rest) }
    | Step.unlock =>
      { locked := false, goroutines := Function.update s.goroutines i (false, rest) }
    | _ => { locked := s.locked, goroutines := Function.update s.goroutines i (inside, rest) }

/-- The goroutines after an interleaving, given as the goroutines scheduled one
after the other. -/
def Sched.run (s : Sched) (schedule : List Nat) : Sched :=
  schedule.foldl Sched.step s

/-- The invariant of the goroutines: the remaining steps of each are in order, at
most one goroutine is between a `Lock` and its `Unlock`, and the mutex is locked
exactly when there is one. -/
def Sched.Safe (s : Sched) : Prop :=
  (∀ i, wellLocked (s.goroutines i).1 (s.goroutines i).2 = true) ∧
    (∀ i j, (s.goroutines i).1 = true → (s.goroutines j).1 = true → i = j) ∧
    (s.locked = true ↔ ∃ i, (s.goroutines i).1 = true)

/-! ## Lemmas on single operations -/

theorem lookup_Set_self (c : Cache K V) (k : K) (v : V) (ttl : Duration) (now : Time) :
    (c.Set k v ttl now).items.lookup k
      = some { value := v, expires := if ttl > 0 then some (now + ttl) else none } := by
  unfold Cache.Set
  by_cases h : ttl > 0 <;> simp [h, Time.Add, Finmap.lookup_insert]

theorem lookup_Set_of_ne (c : Cache K V) {k k' : K} (h : k' ≠ k) (v : V) (ttl : Duration)
    (now : Time) : (c.Set k v ttl now).items.lookup k' = c.items.lookup k' := by
  unfold Cache.Set
  exact Finmap.lookup_insert_of_ne _ h

theorem lookup_Delete_self (c : Cache K V) (k : K) : (c.Delete k).items.lookup k = none := by
  unfold Cache.Delete
  exact Finmap.lookup_erase k _

theorem lookup_Delete_of_ne (c : Cache K V) {k k' : K} (h : k' ≠ k) :
    (c.Delete k).items.lookup k' = c.items.lookup k' := by
  unfold Cache.Delete
  exact Finmap.lookup_erase_ne h

theorem Get_of_lookup_none [Inhabited V] (c : Cache K V) (k : K) (now : Time)
    (h : c.items.lookup k = none) : c.Get k now = ((default, false), c) := by
  unfold Cache.Get
  simp [h]

theorem Get_of_expired [Inhabited V] (c : Cache K V) (k : K) (now : Time) (item : Item V)
    (h : c.items.lookup k = some item) (he : item.expired now = true) :
    c.Get k now = ((default, false), c.Delete k) := by
  unfold Cache.Get Cache.Delete
  simp [h, he]

theorem Get_of_not_expired [Inhabited V] (c : Cache K V) (k : K) (now : Time) (item : Item V)
    (h : c.items.lookup k = some item) (he : item.expired now = false) :
    c.Get k now = ((item.value, true), c) := by
  unfold Cache.Get
  simp [h, he]

theorem expired_iff (item : Item V) (now : Time) :
    item.expired now = true ↔ ∃ e, item.expires = some e ∧ e < now := by
  unfold Item.expired Time.Before
  cases item.expires <;> simp

theorem lookup_Get_of_ne [Inhabited V] (c : Cache K V) {k k' : K} (h : k' ≠ k) (now : Time) :
    (c.Get k now).2.items.lookup k' = c.items.lookup k' := by
  unfold Cache.Get
  cases hl : c.items.lookup k with
  | none => simp
  | some item =>
    by_cases he : item.expired now = true
    · simp [he, Finmap.lookup_erase_ne h]
    · simp [he]

/-! ## Lemmas on sequences of calls -/

theorem run_nil [Inhabited V] (c : Cache K V) : c.run [] = c := rfl

theorem run_cons [Inhabited V] (c : Cache K V) (a : Call K V) (calls : List (Call K V)) :
    c.run (a :: calls) = (c.call a).run calls := rfl

/-- A call that is not a `Set` on `k` leaves the entry of `k` as it is or removes it. -/
theorem call_lookup_of_not_set [Inhabited V] (c : Cache K V) (k : K) (a : Call K V)
    (ha : a.isSetOf k = false) :
    (c.call a).items.lookup k = none ∨ (c.call a).items.lookup k = c.items.lookup k := by
  cases a with
  | Set key value ttl now =>
    have hne : k ≠ key := by
      intro h
      simp [Call.isSetOf, h] at ha
    exact Or.inr (lookup_Set_of_ne c hne value ttl now)
  | Delete key =>
    by_cases h : k = key
    · subst h
      exact Or.inl (lookup_Delete_self c k)
    · exact Or.inr (lookup_Delete_of_ne c h)
  | Get key now =>
    by_cases h : k = key
    · subst h
      cases hl : c.items.lookup k with
      | none =>
        right
        simp [Cache.call, Get_of_lookup_none c k now hl, hl]
      | some item =>
        by_cases he : item.expired now = true
        · left
          simp [Cache.call, Get_of_expired c k now item hl he, lookup_Delete_self]
        · right
          have he' : item.expired now = false := by simpa using he
          simp [Cache.call, Get_of_not_expired c k now item hl he', hl]
    · exact Or.inr (lookup_Get_of_ne c h now)
  | Keys => exact Or.inr rfl
  | Len => exact Or.inr rfl

/-- Calls none of which is a `Set` on `k` leave the entry of `k` as it is or
remove it. -/
theorem run_lookup_of_not_set [Inhabited V] (calls : List (Call K V)) (c : Cache K V) (k : K)
    (h : ∀ a ∈ calls, a.isSetOf k = false) :
    (c.run calls).items.lookup k = none ∨ (c.run calls).items.lookup k = c.items.lookup k := by
  induction calls generalizing c with
  | nil => exact Or.inr rfl
  | cons a rest ih =>
    rw [run_cons]
    have hrest : ∀ b ∈ rest, b.isSetOf k = false := fun b hb => h b (List.mem_cons_of_mem a hb)
    rcases ih (c.call a) hrest with h1 | h1
    · exact Or.inl h1
    · rcases call_lookup_of_not_set c k a (h a (List.mem_cons_self a rest)) with h2 | h2
      · exact Or.inl (h1.trans h2)
      · exact Or.inr (h1.trans h2)

/-- A call that is neither a `Set` nor a `Delete` on `k` keeps an entry of `k`
that has no deadline. -/
theorem call_lookup_of_no_deadline [Inhabited V] (c : Cache K V) (k : K) (a : Call K V)
    (item : Item V) (hl : c.items.lookup k = some item) (hx : item.expires = none)
    (hs : a.isSetOf k = false) (hd : a.isDeleteOf k = false) :
    (c.call a).items.lookup k = some item := by
  cases a with
  | Set key value ttl now =>
    have hne : k ≠ key := by
      intro h
      simp [Call.isSetOf, h] at hs
    exact (lookup_Set_of_ne c hne value ttl now).trans hl
  | Delete key =>
    have hne : k ≠ key := by
      intro h
      simp [Call.isDeleteOf, h] at hd
    exact (lookup_Delete_of_ne c hne).trans hl
  | Get key now =>
    by_cases h : k = key
    · subst h
      have he : item.expired now = false := by simp [Item.expired, hx]
      simp [Cache.call, Get_of_not_expired c k now item hl he, hl]
    · exact (lookup_Get_of_ne c h now).trans hl
  | Keys => exact hl
  | Len => exact hl

/-- Calls none of which is a `Set` or a `Delete` on `k` keep an entry of `k` that
has no deadline. -/
theorem run_lookup_of_no_deadline [Inhabited V] (calls : List (Call K V)) (c : Cache K V)
    (k : K) (item : Item V) (hl : c.items.lookup k = some item) (hx : item.expires = none)
    (h : ∀ a ∈ calls, a.isSetOf k = false ∧ a.isDeleteOf k = false) :
    (c.run calls).items.lookup k = some item := by
  induction calls generalizing c with
  | nil => exact hl
  | cons a rest ih =>
    rw [run_cons]
    have ha := h a (List.mem_cons_self a rest)
    exact ih (c.call a) (call_lookup_of_no_deadline c k a item hl hx ha.1 ha.2)
      (fun b hb => h b (List.mem_cons_of_mem a hb))

/-- After calls none of which is a `Set` on `k`, a `Get` of `k` past the deadline
of the entry that the store held for `k` finds nothing. -/
theorem Get_run_past_deadline [Inhabited V] (calls : List (Call K V)) (c : Cache K V) (k : K)
    (item : Item V) (e now : Time) (hl : c.items.lookup k = some item)
    (hx : item.expires = some e) (hlt : e < now)
    (h : ∀ a ∈ calls, a.isSetOf k = false) :
    ((c.run calls).Get k now).1 = (default, false) := by
  have he : item.expired now = true := (expired_iff item now).2 ⟨e, hx, hlt⟩
  rcases run_lookup_of_not_set calls c k h with h1 | h1
  · rw [Get_of_lookup_none _ k now h1]
  · rw [Get_of_expired _ k now item (h1.trans hl) he]

/-! ## The result of `Get` -/

/-- C1 (as stated, refuted): a store whose entry for `"k"` has the deadline `5`,
read by `Get` when the clock shows exactly `5`: the deadline is at or before the
reading, and yet `Get` returns the stored value and `true`, and keeps the entry. -/
theorem Get_at_deadline_found :
    ((New : Cache String Int).Set "k" 1 5 0).items.lookup "k"
        = some { value := 1, expires := some 5 } ∧
      (5 : Time) ≤ 5 ∧
      (((New : Cache String Int).Set "k" 1 5 0).Get "k" 5).1 = (1, true) := by
  decide

/-- C1 (amended): for every store, key and clock reading, either the key has no
entry or its entry has a deadline strictly before the reading, and `Get` returns
the zero value and `false`; or the key has an entry with no deadline or with a
deadline at or after the reading, and `Get` returns the stored value and `true`. -/
theorem Get_result [Inhabited V] (c : Cache K V) (k : K) (now : Time) :
    ((c.items.lookup k = none ∨
        ∃ item e, c.items.lookup k = some item ∧ item.expires = some e ∧ e < now) ∧
      (c.Get k now).1 = (default, false)) ∨
    (∃ item, c.items.lookup k = some item ∧ (∀ e, item.expires = some e → now ≤ e) ∧
      (c.Get k now).1 = (item.value, true)) := by
  cases hl : c.items.lookup k with
  | none =>
    left
    exact ⟨Or.inl rfl, by rw [Get_of_lookup_none c k now hl]⟩
  | some item =>
    by_cases he : item.expired now = true
    · left
      obtain ⟨e, hx, hlt⟩ := (expired_iff item now).1 he
      exact ⟨Or.inr ⟨item, e, rfl, hx, hlt⟩, by rw [Get_of_expired c k now item hl he]⟩
    · right
      refine ⟨item, rfl, ?_, ?_⟩
      · intro e hx
        by_contra hlt
        exact he ((expired_iff item now).2 ⟨e, hx, not_le.1 hlt⟩)
      · have he' : item.expired now = false := by simpa using he
        rw [Get_of_not_expired c k now item hl he']

/-- C2: after `Set(k, v, ttl)` with `ttl ≤ 0`, followed by any calls none of which
is a `Set` or a `Delete` on `k`, a `Get(k)` at any clock reading returns `(v, true)`. -/
theorem Get_after_Set_without_ttl [Inhabited V] (c : Cache K V) (k : K) (v : V)
    (ttl : Duration) (t0 t1 : Time) (calls : List (Call K V)) (httl : ttl ≤ 0)
    (hcalls : ∀ a ∈ calls, a.isSetOf k = false ∧ a.isDeleteOf k = false) :
    (((c.Set k v ttl t0).run calls).Get k t1).1 = (v, true) := by
  have h0 : (c.Set k v ttl t0).items.lookup k = some { value := v, expires := none } := by
    rw [lookup_Set_self]
    simp [not_lt.2 httl]
  have h1 := run_lookup_of_no_deadline calls (c.Set k v ttl t0) k _ h0 rfl hcalls
  rw [Get_of_not_expired _ k t1 _ h1 (by simp [Item.expired])]

/-- Witness of C2: a `Set` with `ttl = 0` at reading `7`, then a `Get` of the same
key at reading `100`, a `Set` of another key and a `Len`, then the `Get` at `9`. -/
theorem Get_after_Set_without_ttl_witness :
    ((((New : Cache String Int).Set "key" 123 0 7).run
        [Call.Get "key" 100, Call.Set "other" 1 1 3, Call.Len]).Get "key" 9).1 = (123, true) :=
  Get_after_Set_without_ttl New "key" 123 0 7 9
    [Call.Get "key" 100, Call.Set "other" 1 1 3, Call.Len] (by decide) (by decide)

/-- C3: if `Set(k, v, d)` with `d > 0` reads the clock at `t0`, a `Get(k)` that
reads the clock at `t1` with `t0 ≤ t1 < t0 + d` returns `(v, true)`. -/
theorem Get_after_Set_before_deadline [Inhabited V] (c : Cache K V) (k : K) (v : V)
    (d : Duration) (t0 t1 : Time) (hd : 0 < d) (_h0 : t0 ≤ t1) (h1 : t1 < t0 + d) :
    ((c.Set k v d t0).Get k t1).1 = (v, true) := by
  have hl : (c.Set k v d t0).items.lookup k = some { value := v, expires := some (t0 + d) } := by
    rw [lookup_Set_self]
    simp [hd]
  have he : ({ value := v, expires := some (t0 + d) } : Item V).expired t1 = false := by
    simp only [Item.expired, Time.Before, decide_eq_false_iff_not, not_lt]
    exact le_of_lt h1
  rw [Get_of_not_expired _ k t1 _ hl he]

/-- Witness of C3: `Set` with `d = 10` at reading `7`, `Get` at reading `16`. -/
theorem Get_after_Set_before_deadline_witness :
    (((New : Cache String Int).Set "key" 123 10 7).Get "key" 16).1 = (123, true) :=
  Get_after_Set_before_deadline New "key" 123 10 7 16 (by decide) (by decide) (by decide)

/-- C4 (as stated, refuted): `Set` with `d = 1` reads the clock at `0` and `Get`
reads it at `1 = 0 + 1`, so at least `d` has passed, and yet `Get` returns the
stored value and `true`. -/
theorem Get_exactly_at_deadline_found :
    (0 : Time) + 1 ≤ 1 ∧
      (((New : Cache String Int).Set "key" 123 1 0).Get "key" 1).1 = (123, true) := by
  decide

/-- C4 (amended): if `Set(k, v, d)` with `d > 0` reads the clock at `t0`, then after
any calls none of which is a `Set` on `k`, a `Get(k)` that reads the clock at `t1`
with `t1 > t0 + d` returns the zero value and `false`. -/
theorem Get_after_Set_past_deadline [Inhabited V] (c : Cache K V) (k : K) (v : V)
    (d : Duration) (t0 t1 : Time) (calls : List (Call K V)) (hd : 0 < d)
    (h1 : t0 + d < t1) (hcalls : ∀ a ∈ calls, a.isSetOf k = false) :
    (((c.Set k v d t0).run calls).Get k t1).1 = (default, false) := by
  have hl : (c.Set k v d t0).items.lookup k = some { value := v, expires := some (t0 + d) } := by
    rw [lookup_Set_self]
    simp [hd]
  exact Get_run_past_deadline calls _ k _ (t0 + d) t1 hl rfl h1 hcalls

/-- Witness of C4 (amended): `Set` with `d = 1` at reading `0`, a `Get` of another
key, then `Get` at reading `2`. -/
theorem Get_after_Set_past_deadline_witness :
    ((((New : Cache String Int).Set "key" 123 1 0).run [Call.Get "other" 5]).Get "key" 2).1
      = (0, false) :=
  Get_after_Set_past_deadline New "key" 123 1 0 2 [Call.Get "other" 5]
    (by decide) (by decide) (by decide)

/-- C5: if `Set(k, v, d)` with `d > 0` reads the clock at `t0`, then after any calls
none of which is a `Set` on `k`, a `Get(k)` that reads the clock strictly after
`t0 + d` returns the zero value and `false`; so does, in particular, a `Get(k)` that
reads the clock at `t0 + 2 * d`, as after sleeping `2 * d`. -/
theorem Get_expired_item [Inhabited V] (c : Cache K V) (k : K) (v : V) (d : Duration)
    (t0 : Time) (calls : List (Call K V)) (hd : 0 < d)
    (hcalls : ∀ a ∈ calls, a.isSetOf k = false) :
    (∀ t1 : Time, t0 + d < t1 →
        (((c.Set k v d t0).run calls).Get k t1).1 = (default, false)) ∧
      (((c.Set k v d t0).run calls).Get k (t0 + 2 * d)).1 = (default, false) := by
  have hl : (c.Set k v d t0).items.lookup k = some { value := v, expires := some (t0 + d) } := by
    rw [lookup_Set_self]
    simp [hd]
  have key : ∀ t1 : Time, t0 + d < t1 →
      (((c.Set k v d t0).run calls).Get k t1).1 = (default, false) :=
    fun t1 h1 => Get_run_past_deadline calls _ k _ (t0 + d) t1 hl rfl h1 hcalls
  exact ⟨key, key (t0 + 2 * d) (by linarith)⟩

/-- Witness of C5: the scenario of `ExampleCache`, a `Set` of `"expired"` with a
`ttl` of one nanosecond at reading `40`, and a `Get` two nanoseconds later. -/
theorem Get_expired_item_witness :
    ((((New : Cache String Int).Set "key" 123 0 0).Set "expired" 12345 1 40).Get "expired"
      (40 + 2 * 1)).1 = (0, false) :=
  (Get_expired_item ((New : Cache String Int).Set "key" 123 0 0) "expired" 12345 1 40 []
    (by decide) (by decide)).2

/-! ## `Keys` and `Len` -/

theorem Len_eq_card_Keys (c : Cache K V) : c.Len = Multiset.card c.Keys := by
  unfold Cache.Len Cache.Keys Multiset.keys
  rw [Multiset.card_map]

theorem mem_Keys_iff (c : Cache K V) (k : K) : k ∈ c.Keys ↔ k ∈ c.items :=
  Finmap.mem_def.symm

theorem mem_Keys_iff_lookup (c : Cache K V) (k : K) :
    k ∈ c.Keys ↔ ∃ item, c.items.lookup k = some item := by
  rw [mem_Keys_iff]
  exact Finmap.mem_iff

theorem not_mem_Keys_iff_lookup (c : Cache K V) (k : K) :
    k ∉ c.Keys ↔ c.items.lookup k = none := by
  rw [mem_Keys_iff]
  exact Finmap.lookup_eq_none.symm

theorem Keys_nodup (c : Cache K V) : c.Keys.Nodup :=
  c.items.keys.nodup

theorem Keys_Delete (c : Cache K V) (k : K) : (c.Delete k).Keys = c.Keys.erase k := by
  have h := congrArg Finset.val (Finmap.keys_erase k c.items)
  rw [Finset.erase_val] at h
  exact h

theorem Len_Delete_of_mem (c : Cache K V) (k : K) (h : k ∈ c.Keys) :
    (c.Delete k).Len + 1 = c.Len := by
  rw [Len_eq_card_Keys, Len_eq_card_Keys, Keys_Delete, Multiset.card_erase_of_mem h]
  exact Nat.succ_pred_eq_of_pos (Multiset.card_pos_iff_exists_mem.2 ⟨k, h⟩)

theorem Delete_of_lookup_none (c : Cache K V) (k : K) (h : c.items.lookup k = none) :
    c.Delete k = c := by
  have : c.items.erase k = c.items := by
    apply Finmap.ext_lookup
    intro x
    by_cases hx : x = k
    · subst hx
      rw [Finmap.lookup_erase, h]
    · exact Finmap.lookup_erase_ne hx
  cases c
  simpa [Cache.Delete] using this

/-- A call that is neither a `Get` nor a `Delete` on `k` keeps `k` among the keys. -/
theorem call_mem_Keys [Inhabited V] (c : Cache K V) (k : K) (a : Call K V) (hk : k ∈ c.Keys)
    (hg : a.isGetOf k = false) (hd : a.isDeleteOf k = false) : k ∈ (c.call a).Keys := by
  rw [mem_Keys_iff_lookup] at hk ⊢
  cases a with
  | Set key value ttl now =>
    by_cases h : k = key
    · subst h
      exact ⟨_, lookup_Set_self c k value ttl now⟩
    · obtain ⟨item, hi⟩ := hk
      exact ⟨item, (lookup_Set_of_ne c h value ttl now).trans hi⟩
  | Delete key =>
    have hne : k ≠ key := by
      intro h
      simp [Call.isDeleteOf, h] at hd
    obtain ⟨item, hi⟩ := hk
    exact ⟨item, (lookup_Delete_of_ne c hne).trans hi⟩
  | Get key now =>
    have hne : k ≠ key := by
      intro h
      simp [Call.isGetOf, h] at hg
    obtain ⟨item, hi⟩ := hk
    exact ⟨item, (lookup_Get_of_ne c hne now).trans hi⟩
  | Keys => exact hk
  | Len => exact hk

/-- Calls none of which is a `Get` or a `Delete` on `k` keep `k` among the keys. -/
theorem run_mem_Keys [Inhabited V] (calls : List (Call K V)) (c : Cache K V) (k : K)
    (hk : k ∈ c.Keys) (h : ∀ a ∈ calls, a.isGetOf k = false ∧ a.isDeleteOf k = false) :
    k ∈ (c.run calls).Keys := by
  induction calls generalizing c with
  | nil => exact hk
  | cons a rest ih =>
    rw [run_cons]
    have ha := h a (List.mem_cons_self a rest)
    exact ih (c.call a) (call_mem_Keys c k a hk ha.1 ha.2)
      (fun b hb => h b (List.mem_cons_of_mem a hb))

/-! ## Laws of `Set`, `Delete` and pruning -/

/-- C6 (overwrite law): the store after `Set(k, v1, t1)` then `Set(k, v2, t2)` is the
store after `Set(k, v2, t2)` alone; its entry for `k` holds `v2` and the deadline
derived from `t2` (none when `t2 ≤ 0`), and every later `Get(k)` returns, and
leaves, what it does after the second `Set` alone. -/
theorem Set_overwrite [Inhabited V] (c : Cache K V) (k : K) (v1 v2 : V) (ttl1 ttl2 : Duration)
    (now1 now2 : Time) :
    (c.Set k v1 ttl1 now1).Set k v2 ttl2 now2 = c.Set k v2 ttl2 now2 ∧
      ((c.Set k v1 ttl1 now1).Set k v2 ttl2 now2).items.lookup k
        = some { value := v2, expires := if ttl2 > 0 then some (now2 + ttl2) else none } ∧
      ∀ now : Time, ((c.Set k v1 ttl1 now1).Set k v2 ttl2 now2).Get k now
        = (c.Set k v2 ttl2 now2).Get k now := by
  have h : (c.Set k v1 ttl1 now1).Set k v2 ttl2 now2 = c.Set k v2 ttl2 now2 := by
    simp only [Cache.Set, Finmap.insert_insert]
  refine ⟨h, lookup_Set_self _ k v2 ttl2 now2, ?_⟩
  intro now
  rw [h]

/-- C7 (delete law): after `Delete(k)`, whatever the store held for `k`, a `Get(k)`
at any clock reading returns the zero value and `false`, `k` is not among `Keys()`,
which are the former keys without `k`, and `Len()` is the former count less one if
`k` had an entry and the former count otherwise. -/
theorem Delete_law [Inhabited V] (c : Cache K V) (k : K) (now : Time) :
    ((c.Delete k).Get k now).1 = (default, false) ∧
      k ∉ (c.Delete k).Keys ∧
      (c.Delete k).Keys = c.Keys.erase k ∧
      (c.Delete k).Len = if k ∈ c.Keys then c.Len - 1 else c.Len := by
  refine ⟨?_, ?_, Keys_Delete c k, ?_⟩
  · rw [Get_of_lookup_none _ k now (lookup_Delete_self c k)]
  · rw [not_mem_Keys_iff_lookup]
    exact lookup_Delete_self c k
  · by_cases hk : k ∈ c.Keys
    · rw [if_pos hk, ← Len_Delete_of_mem c k hk, Nat.add_sub_cancel]
    · rw [if_neg hk, Delete_of_lookup_none c k ((not_mem_Keys_iff_lookup c k).1 hk)]

/-- C8: on a key that has no entry in the map, `Delete` returns the store
unchanged, hence with the same `Len()`, the same `Keys()` and the same result and
effect of every `Get`. -/
theorem Delete_absent [Inhabited V] (c : Cache K V) (k : K) (h : c.items.lookup k = none) :
    c.Delete k = c ∧ (c.Delete k).items = c.items ∧ (c.Delete k).Len = c.Len ∧
      (c.Delete k).Keys = c.Keys ∧
      ∀ (k' : K) (now : Time), (c.Delete k).Get k' now = c.Get k' now := by
  have hc := Delete_of_lookup_none c k h
  refine ⟨hc, ?_, ?_, ?_, ?_⟩
  · rw [hc]
  · rw [hc]
  · rw [hc]
  · intro k' now
    rw [hc]

/-- Witness of C8: `Delete` of `"absent"` on a store that holds only `"key"`. -/
theorem Delete_absent_witness :
    ((New : Cache String Int).Set "key" 123 0 0).Delete "absent"
        = (New : Cache String Int).Set "key" 123 0 0 ∧
      (((New : Cache String Int).Set "key" 123 0 0).Delete "absent").items
        = ((New : Cache String Int).Set "key" 123 0 0).items ∧
      (((New : Cache String Int).Set "key" 123 0 0).Delete "absent").Len
        = ((New : Cache String Int).Set "key" 123 0 0).Len ∧
      (((New : Cache String Int).Set "key" 123 0 0).Delete "absent").Keys
        = ((New : Cache String Int).Set "key" 123 0 0).Keys ∧
      ∀ (k' : String) (now : Time),
        (((New : Cache String Int).Set "key" 123 0 0).Delete "absent").Get k' now
          = ((New : Cache String Int).Set "key" 123 0 0).Get k' now :=
  Delete_absent ((New : Cache String Int).Set "key" 123 0 0) "absent" (by decide)

/-- C9 (lazy pruning): if `k` has an entry in the map and `Get(k)` returns
`found = false`, then in the store after that call `Len()` is exactly one less than
before, `k` is not among `Keys()`, and the entry of every other key is unchanged. -/
theorem Get_prunes [Inhabited V] (c : Cache K V) (k : K) (now : Time) (hk : k ∈ c.Keys)
    (hf : (c.Get k now).1.2 = false) :
    (c.Get k now).2.Len + 1 = c.Len ∧ k ∉ (c.Get k now).2.Keys ∧
      ∀ k' : K, k' ≠ k → (c.Get k now).2.items.lookup k' = c.items.lookup k' := by
  obtain ⟨item, hl⟩ := (mem_Keys_iff_lookup c k).1 hk
  have he : item.expired now = true := by
    by_contra hne
    have he' : item.expired now = false := by simpa using hne
    rw [Get_of_not_expired c k now item hl he'] at hf
    exact Bool.noConfusion hf
  rw [Get_of_expired c k now item hl he]
  refine ⟨Len_Delete_of_mem c k hk, ?_, fun k' hne => lookup_Delete_of_ne c hne⟩
  rw [not_mem_Keys_iff_lookup]
  exact lookup_Delete_self c k

/-- Witness of C9: an entry set with a `ttl` of `1` at reading `0`, next to another
entry, and read by `Get` at reading `5`. -/
theorem Get_prunes_witness :
    (((((New : Cache String Int).Set "other" 7 0 0).Set "key" 123 1 0).Get "key" 5).2.Len + 1
        = (((New : Cache String Int).Set "other" 7 0 0).Set "key" 123 1 0).Len) ∧
      "key" ∉ ((((New : Cache String Int).Set "other" 7 0 0).Set "key" 123 1 0).Get "key" 5).2.Keys ∧
      ∀ k' : String, k' ≠ "key" →
        ((((New : Cache String Int).Set "other" 7 0 0).Set "key" 123 1 0).Get "key" 5).2.items.lookup k'
          = (((New : Cache String Int).Set "other" 7 0 0).Set "key" 123 1 0).items.lookup k' :=
  Get_prunes (((New : Cache String Int).Set "other" 7 0 0).Set "key" 123 1 0) "key" 5
    (by decide) (by decide)

/-- C10: after `Set(k, v, d)` with `d > 0` and any calls none of which is a `Get` or
a `Delete` on `k`, `Keys()` contains `k` and `Len()` counts it (removing `k` would
lower the count by one); neither reads the clock, and both hold as well when
a `Get(k)` at a reading past the deadline would return `found = false`. -/
theorem Keys_Len_keep_expired [Inhabited V] (c : Cache K V) (k : K) (v : V) (d : Duration)
    (t0 : Time) (calls : List (Call K V)) (hd : 0 < d)
    (hcalls : ∀ a ∈ calls, a.isGetOf k = false ∧ a.isDeleteOf k = false) :
    k ∈ ((c.Set k v d t0).run calls).Keys ∧
      ((c.Set k v d t0).run calls).Len = (((c.Set k v d t0).run calls).Delete k).Len + 1 ∧
      ∀ t1 : Time, t0 + d < t1 → (∀ a ∈ calls, a.isSetOf k = false) →
        (((c.Set k v d t0).run calls).Get k t1).1 = (default, false) ∧
          k ∈ ((c.Set k v d t0).run calls).Keys := by
  have hk0 : k ∈ (c.Set k v d t0).Keys :=
    (mem_Keys_iff_lookup _ k).2 ⟨_, lookup_Set_self c k v d t0⟩
  have hk : k ∈ ((c.Set k v d t0).run calls).Keys := run_mem_Keys calls _ k hk0 hcalls
  refine ⟨hk, (Len_Delete_of_mem _ k hk).symm, ?_⟩
  intro t1 h1 hs
  have hl : (c.Set k v d t0).items.lookup k = some { value := v, expires := some (t0 + d) } := by
    rw [lookup_Set_self]
    simp [hd]
  exact ⟨Get_run_past_deadline calls _ k _ (t0 + d) t1 hl rfl h1 hs, hk⟩

/-- Witness of C10: `Set` of `"key"` with a `ttl` of `1` at reading `0`, then calls
on another key and `Len` and `Keys`, among them a `Get` at reading `50`. -/
theorem Keys_Len_keep_expired_witness :
    "key" ∈ (((New : Cache String Int).Set "key" 123 1 0).run
        [Call.Set "other" 1 0 0, Call.Get "other" 50, Call.Len, Call.Keys]).Keys ∧
      (((New : Cache String Int).Set "key" 123 1 0).run
        [Call.Set "other" 1 0 0, Call.Get "other" 50, Call.Len, Call.Keys]).Len
        = ((((New : Cache String Int).Set "key" 123 1 0).run
            [Call.Set "other" 1 0 0, Call.Get "other" 50, Call.Len, Call.Keys]).Delete "key").Len
          + 1 ∧
      ∀ t1 : Time, 0 + 1 < t1 →
        (∀ a ∈ ([Call.Set "other" 1 0 0, Call.Get "other" 50, Call.Len, Call.Keys] :
            List (Call String Int)), Call.isSetOf "key" a = false) →
        ((((New : Cache String Int).Set "key" 123 1 0).run
            [Call.Set "other" 1 0 0, Call.Get "other" 50, Call.Len, Call.Keys]).Get "key" t1).1
            = (default, false) ∧
          "key" ∈ (((New : Cache String Int).Set "key" 123 1 0).run
            [Call.Set "other" 1 0 0, Call.Get "other" 50, Call.Len, Call.Keys]).Keys :=
  Keys_Len_keep_expired New "key" 123 1 0
    [Call.Set "other" 1 0 0, Call.Get "other" 50, Call.Len, Call.Keys] (by decide) (by decide)

/-! ## The entry that `Set` stores, and the count of entries -/

theorem Set_eq_Set_Delete (c : Cache K V) (k : K) (v : V) (ttl : Duration) (now : Time) :
    c.Set k v ttl now = (c.Delete k).Set k v ttl now := by
  have h : ∀ item : Item V, c.items.insert k item = (c.items.erase k).insert k item := by
    intro item
    apply Finmap.ext_lookup
    intro x
    by_cases hx : x = k
    · subst hx
      rw [Finmap.lookup_insert, Finmap.lookup_insert]
    · rw [Finmap.lookup_insert_of_ne _ hx, Finmap.lookup_insert_of_ne _ hx,
        Finmap.lookup_erase_ne hx]
  simp only [Cache.Set, Cache.Delete, h]

theorem Len_Set_of_not_mem (c : Cache K V) (k : K) (v : V) (ttl : Duration) (now : Time)
    (h : k ∉ c.Keys) : (c.Set k v ttl now).Len = c.Len + 1 := by
  have h' : k ∉ c.items := fun hm => h ((mem_Keys_iff c k).2 hm)
  simp only [Cache.Set, Cache.Len, Finmap.insert_entries_of_neg h', Multiset.card_cons]

theorem Len_Set_of_mem (c : Cache K V) (k : K) (v : V) (ttl : Duration) (now : Time)
    (h : k ∈ c.Keys) : (c.Set k v ttl now).Len = c.Len := by
  have hnot : k ∉ (c.Delete k).Keys :=
    (not_mem_Keys_iff_lookup _ k).2 (lookup_Delete_self c k)
  rw [Set_eq_Set_Delete, Len_Set_of_not_mem _ k v ttl now hnot, Len_Delete_of_mem c k h]

theorem mem_Keys_Set_self (c : Cache K V) (k : K) (v : V) (ttl : Duration) (now : Time) :
    k ∈ (c.Set k v ttl now).Keys :=
  (mem_Keys_iff_lookup _ k).2 ⟨_, lookup_Set_self c k v ttl now⟩

theorem lookup_New (k : K) : (New : Cache K V).items.lookup k = none :=
  Finmap.lookup_empty k

theorem Len_New : (New : Cache K V).Len = 0 := rfl

theorem Keys_New : (New : Cache K V).Keys = 0 := rfl

/-- C13: after `Set(k, v, ttl)` that reads the clock at `now`, the entry stored for
`k` has the value `v` and the deadline `now + ttl` if `ttl > 0`, and no deadline if
`ttl ≤ 0`; a stored deadline is never earlier than `now + ttl`. -/
theorem Set_stores [Inhabited V] (c : Cache K V) (k : K) (v : V) (ttl : Duration) (now : Time) :
    (c.Set k v ttl now).items.lookup k
        = some { value := v, expires := if ttl > 0 then some (now + ttl) else none } ∧
      ∀ item e, (c.Set k v ttl now).items.lookup k = some item → item.expires = some e →
        now + ttl ≤ e := by
  refine ⟨lookup_Set_self c k v ttl now, ?_⟩
  intro item e hl hx
  rw [lookup_Set_self] at hl
  have hi := Option.some.inj hl
  subst hi
  by_cases h : ttl > 0
  · simp only [h, if_true] at hx
    exact le_of_eq (Option.some.inj hx)
  · simp [h] at hx

/-- C14: `Set(k, v, ttl)` leaves `Len()` unchanged when the map already holds an
entry for `k` and raises it by exactly one when it does not; afterwards `Keys()`
lists `k` exactly once; and `Set(k, v1, 0)` then `Set(k, v2, 0)` on an empty store
gives `Len() = 1`. -/
theorem Len_Set [Inhabited V] (c : Cache K V) (k : K) (v v1 v2 : V) (ttl : Duration)
    (now now1 now2 : Time) :
    ((c.Set k v ttl now).Len = if k ∈ c.Keys then c.Len else c.Len + 1) ∧
      (c.Set k v ttl now).Keys.count k = 1 ∧
      (((New : Cache K V).Set k v1 0 now1).Set k v2 0 now2).Len = 1 := by
  refine ⟨?_, ?_, ?_⟩
  · by_cases hk : k ∈ c.Keys
    · rw [if_pos hk, Len_Set_of_mem c k v ttl now hk]
    · rw [if_neg hk, Len_Set_of_not_mem c k v ttl now hk]
  · exact Multiset.count_eq_one_of_mem (Keys_nodup _) (mem_Keys_Set_self c k v ttl now)
  · rw [Len_Set_of_mem _ k v2 0 now2 (mem_Keys_Set_self _ k v1 0 now1),
      Len_Set_of_not_mem _ k v1 0 now1 ((not_mem_Keys_iff_lookup _ k).2 (lookup_New k)), Len_New]

/-- C15: a store returned by `New` is empty: `Len()` is `0`, `Keys()` is empty, and
`Get(k)` returns the zero value and `false` for every key at every clock reading,
leaving the store empty. -/
theorem New_empty [Inhabited V] (k : K) (now : Time) :
    (New : Cache K V).Len = 0 ∧ (New : Cache K V).Keys = 0 ∧
      ((New : Cache K V).Get k now).1 = (default, false) ∧
      ((New : Cache K V).Get k now).2 = New := by
  refine ⟨Len_New, Keys_New, ?_, ?_⟩
  · rw [Get_of_lookup_none _ k now (lookup_New k)]
  · rw [Get_of_lookup_none _ k now (lookup_New k)]

/-- C16: `Keys()` contains each key of the map exactly once and no other key, so
its length is `Len()`; and a call of `Keys()` or `Len()` leaves the store as it is. -/
theorem Keys_exact [Inhabited V] (c : Cache K V) (k : K) :
    c.Keys.Nodup ∧
      (k ∈ c.Keys ↔ ∃ item, c.items.lookup k = some item) ∧
      (c.Keys.count k = if (c.items.lookup k).isSome then 1 else 0) ∧
      Multiset.card c.Keys = c.Len ∧
      c.call Call.Keys = c ∧ c.call Call.Len = c := by
  refine ⟨Keys_nodup c, mem_Keys_iff_lookup c k, ?_, (Len_eq_card_Keys c).symm, rfl, rfl⟩
  cases hl : c.items.lookup k with
  | none =>
    have hk : k ∉ c.Keys := (not_mem_Keys_iff_lookup c k).2 hl
    simp [Multiset.count_eq_zero_of_not_mem hk]
  | some item =>
    have hk : k ∈ c.Keys := (mem_Keys_iff_lookup c k).2 ⟨item, hl⟩
    simp [Multiset.count_eq_one_of_mem (Keys_nodup c) hk]

/-! ## Frame properties -/

theorem Get_result_congr [Inhabited V] (c c' : Cache K V) (k : K) (now : Time)
    (h : c'.items.lookup k = c.items.lookup k) : (c'.Get k now).1 = (c.Get k now).1 := by
  unfold Cache.Get
  rw [h]
  cases c.items.lookup k with
  | none => rfl
  | some item =>
    by_cases he : item.expired now = true
    · simp [he]
    · simp [he]

/-- C17 (per-key independence): for keys `k ≠ k'`, none of `Set(k, v, ttl)`,
`Delete(k)` and `Get(k)`, at any clock reading, changes the entry stored for `k'`,
and the result of `Get(k')` at any clock reading is the same after as before. -/
theorem other_key_unchanged [Inhabited V] (c : Cache K V) (k k' : K) (v : V) (ttl : Duration)
    (now : Time) (h : k ≠ k') :
    ((c.Set k v ttl now).items.lookup k' = c.items.lookup k' ∧
        (c.Delete k).items.lookup k' = c.items.lookup k' ∧
        (c.Get k now).2.items.lookup k' = c.items.lookup k') ∧
      ∀ now' : Time,
        ((c.Set k v ttl now).Get k' now').1 = (c.Get k' now').1 ∧
          ((c.Delete k).Get k' now').1 = (c.Get k' now').1 ∧
          ((c.Get k now).2.Get k' now').1 = (c.Get k' now').1 := by
  have hne : k' ≠ k := fun e => h e.symm
  have h1 := lookup_Set_of_ne c hne v ttl now
  have h2 := lookup_Delete_of_ne c hne
  have h3 := lookup_Get_of_ne c hne now
  exact ⟨⟨h1, h2, h3⟩, fun now' =>
    ⟨Get_result_congr _ _ k' now' h1, Get_result_congr _ _ k' now' h2,
      Get_result_congr _ _ k' now' h3⟩⟩

/-- Witness of C17: the key `"b"` holds an entry next to the expired entry of `"a"`,
on which `Set`, `Delete` and a pruning `Get` are made at reading `9`. -/
theorem other_key_unchanged_witness :
    (((((New : Cache String Int).Set "a" 1 2 0).Set "b" 7 30 0).Set "a" 5 3 9).items.lookup "b"
          = (((New : Cache String Int).Set "a" 1 2 0).Set "b" 7 30 0).items.lookup "b" ∧
        ((((New : Cache String Int).Set "a" 1 2 0).Set "b" 7 30 0).Delete "a").items.lookup "b"
          = (((New : Cache String Int).Set "a" 1 2 0).Set "b" 7 30 0).items.lookup "b" ∧
        ((((New : Cache String Int).Set "a" 1 2 0).Set "b" 7 30 0).Get "a" 9).2.items.lookup "b"
          = (((New : Cache String Int).Set "a" 1 2 0).Set "b" 7 30 0).items.lookup "b") ∧
      ∀ now' : Time,
        (((((New : Cache String Int).Set "a" 1 2 0).Set "b" 7 30 0).Set "a" 5 3 9).Get "b" now').1
            = ((((New : Cache String Int).Set "a" 1 2 0).Set "b" 7 30 0).Get "b" now').1 ∧
          (((((New : Cache String Int).Set "a" 1 2 0).Set "b" 7 30 0).Delete "a").Get "b" now').1
            = ((((New : Cache String Int).Set "a" 1 2 0).Set "b" 7 30 0).Get "b" now').1 ∧
          (((((New : Cache String Int).Set "a" 1 2 0).Set "b" 7 30 0).Get "a" 9).2.Get "b" now').1
            = ((((New : Cache String Int).Set "a" 1 2 0).Set "b" 7 30 0).Get "b" now').1 :=
  other_key_unchanged (((New : Cache String Int).Set "a" 1 2 0).Set "b" 7 30 0) "a" "b" 5 3 9
    (by decide)

/-- C18: if `Get(k)` returns `found = true`, or if `k` has no entry in the map, the
store after the call is the store before it, and the same `Get` made again at the
same clock reading returns the same result. -/
theorem Get_unchanged [Inhabited V] (c : Cache K V) (k : K) (now : Time)
    (h : (c.Get k now).1.2 = true ∨ c.items.lookup k = none) :
    (c.Get k now).2 = c ∧ (c.Get k now).2.items = c.items ∧
      ((c.Get k now).2.Get k now).1 = (c.Get k now).1 := by
  have hc : (c.Get k now).2 = c := by
    cases hl : c.items.lookup k with
    | none => rw [Get_of_lookup_none c k now hl]
    | some item =>
      by_cases he : item.expired now = true
      · rcases h with h | h
        · rw [Get_of_expired c k now item hl he] at h
          exact Bool.noConfusion h
        · rw [hl] at h
          exact Option.noConfusion h
      · have he' : item.expired now = false := by simpa using he
        rw [Get_of_not_expired c k now item hl he']
  refine ⟨hc, ?_, ?_⟩
  · rw [hc]
  · rw [hc]

/-- Witness of C18: a `Get` at reading `4` of an entry whose deadline is `10`. -/
theorem Get_unchanged_witness :
    (((New : Cache String Int).Set "key" 123 10 0).Get "key" 4).2
        = (New : Cache String Int).Set "key" 123 10 0 ∧
      (((New : Cache String Int).Set "key" 123 10 0).Get "key" 4).2.items
        = ((New : Cache String Int).Set "key" 123 10 0).items ∧
      ((((New : Cache String Int).Set "key" 123 10 0).Get "key" 4).2.Get "key" 4).1
        = (((New : Cache String Int).Set "key" 123 10 0).Get "key" 4).1 :=
  Get_unchanged ((New : Cache String Int).Set "key" 123 10 0) "key" 4 (Or.inl (by decide))

/-! ## `Set` on distinct keys -/

theorem Cache.ext_items {c c' : Cache K V} (h : c.items = c'.items) : c = c' := by
  cases c
  cases c'
  simpa using h

theorem lookup_run_setCalls_of_not_mem [Inhabited V] (kvs : List (K × V)) (now : Time)
    (c : Cache K V) (k : K) (hk : k ∉ kvs.map Prod.fst) :
    (c.run (setCalls kvs now)).items.lookup k = c.items.lookup k := by
  induction kvs generalizing c with
  | nil => rfl
  | cons p rest ih =>
    have hne : k ≠ p.1 := fun e => hk (by simp [e])
    have hrest : k ∉ rest.map Prod.fst := fun hm => hk (by simp at hm ⊢; exact Or.inr hm)
    show ((c.Set p.1 p.2 0 now).run (setCalls rest now)).items.lookup k = _
    rw [ih _ hrest, lookup_Set_of_ne c hne]

theorem lookup_run_setCalls_of_mem [Inhabited V] (kvs : List (K × V)) (now : Time)
    (c : Cache K V) (hnd : (kvs.map Prod.fst).Nodup) (p : K × V) (hp : p ∈ kvs) :
    (c.run (setCalls kvs now)).items.lookup p.1 = some { value := p.2, expires := none } := by
  induction kvs generalizing c with
  | nil => exact absurd hp (List.not_mem_nil p)
  | cons q rest ih =>
    rw [List.map_cons, List.nodup_cons] at hnd
    show ((c.Set q.1 q.2 0 now).run (setCalls rest now)).items.lookup p.1 = _
    rcases List.mem_cons.1 hp with h | h
    · subst h
      rw [lookup_run_setCalls_of_not_mem rest now _ p.1 hnd.1, lookup_Set_self]
      simp
    · exact ih _ hnd.2 h

theorem Len_run_setCalls [Inhabited V] (kvs : List (K × V)) (now : Time) (c : Cache K V)
    (hnd : (kvs.map Prod.fst).Nodup) (hc : ∀ k ∈ kvs.map Prod.fst, k ∉ c.Keys) :
    (c.run (setCalls kvs now)).Len = c.Len + kvs.length := by
  induction kvs generalizing c with
  | nil => rfl
  | cons q rest ih =>
    rw [List.map_cons, List.nodup_cons] at hnd
    show ((c.Set q.1 q.2 0 now).run (setCalls rest now)).Len = _
    have hq : q.1 ∉ c.Keys := hc q.1 (by simp)
    have hrest : ∀ k ∈ rest.map Prod.fst, k ∉ (c.Set q.1 q.2 0 now).Keys := by
      intro k hk
      have hne : k ≠ q.1 := fun e => hnd.1 (e ▸ hk)
      rw [not_mem_Keys_iff_lookup, lookup_Set_of_ne c hne, ← not_mem_Keys_iff_lookup]
      exact hc k (by simp at hk ⊢; exact Or.inr hk)
    rw [ih _ hnd.2 hrest, Len_Set_of_not_mem c q.1 q.2 0 now hq, List.length_cons]
    omega

/-- C11: for pairwise-distinct keys `k_1 .. k_N` with values `v_1 .. v_N`, the calls
`Set(k_i, v_i, 0)` made on a new store in any order give the same final store, in
which `Len()` is `N` and `Get(k_i)` returns `(v_i, true)` for every `i`. -/
theorem Set_distinct_keys_any_order [Inhabited V] (kvs kvs' : List (K × V)) (now now' : Time)
    (hnd : (kvs.map Prod.fst).Nodup) (hperm : kvs'.Perm kvs) :
    (New : Cache K V).run (setCalls kvs' now') = (New : Cache K V).run (setCalls kvs now) ∧
      ((New : Cache K V).run (setCalls kvs' now')).Len = kvs.length ∧
      ∀ p ∈ kvs, ∀ t : Time,
        (((New : Cache K V).run (setCalls kvs' now')).Get p.1 t).1 = (p.2, true) := by
  have hnd' : (kvs'.map Prod.fst).Nodup := (List.Perm.map Prod.fst hperm).nodup_iff.2 hnd
  refine ⟨?_, ?_, ?_⟩
  · apply Cache.ext_items
    apply Finmap.ext_lookup
    intro x
    by_cases hx : x ∈ kvs.map Prod.fst
    · obtain ⟨p, hp, rfl⟩ := List.mem_map.1 hx
      rw [lookup_run_setCalls_of_mem kvs now _ hnd p hp,
        lookup_run_setCalls_of_mem kvs' now' _ hnd' p (hperm.mem_iff.2 hp)]
    · have hx' : x ∉ kvs'.map Prod.fst :=
        fun hm => hx ((List.Perm.map Prod.fst hperm).mem_iff.1 hm)
      rw [lookup_run_setCalls_of_not_mem kvs now _ x hx,
        lookup_run_setCalls_of_not_mem kvs' now' _ x hx']
  · rw [Len_run_setCalls kvs' now' _ hnd'
      (fun k _ => (not_mem_Keys_iff_lookup _ k).2 (lookup_New k)), Len_New, hperm.length_eq]
    omega
  · intro p hp t
    have hl := lookup_run_setCalls_of_mem kvs' now' (New : Cache K V) hnd' p (hperm.mem_iff.2 hp)
    rw [Get_of_not_expired _ p.1 t _ hl (by simp [Item.expired])]

/-- Witness of C11: three keys, set in the order `c, a, b` and in the order
`a, b, c`. -/
theorem Set_distinct_keys_any_order_witness :
    (New : Cache String Int).run (setCalls [("c", 3), ("a", 1), ("b", 2)] 0)
        = (New : Cache String Int).run (setCalls [("a", 1), ("b", 2), ("c", 3)] 0) ∧
      ((New : Cache String Int).run (setCalls [("c", 3), ("a", 1), ("b", 2)] 0)).Len
        = ([("a", 1), ("b", 2), ("c", 3)] : List (String × Int)).length ∧
      ∀ p ∈ ([("a", 1), ("b", 2), ("c", 3)] : List (String × Int)), ∀ t : Time,
        (((New : Cache String Int).run (setCalls [("c", 3), ("a", 1), ("b", 2)] 0)).Get p.1 t).1
          = (p.2, true) :=
  Set_distinct_keys_any_order [("a", 1), ("b", 2), ("c", 3)] [("c", 3), ("a", 1), ("b", 2)] 0 0
    (by decide) (by decide)

/-! ## Pruning against a store that never prunes -/

theorem runNoPrune_append (c : Cache K V) (pre : List (Call K V)) (a : Call K V) :
    c.runNoPrune (pre ++ [a]) = (c.runNoPrune pre).callNoPrune a := by
  simp [Cache.runNoPrune, List.foldl_append]

theorem run_append [Inhabited V] (c : Cache K V) (pre : List (Call K V)) (a : Call K V) :
    c.run (pre ++ [a]) = (c.run pre).call a := by
  simp [Cache.run, List.foldl_append]

theorem lastWrite_append (k : K) (pre : List (Call K V)) (a : Call K V) :
    lastWrite k (pre ++ [a])
      = if (a.isSetOf k || a.isDeleteOf k) = true then some a else lastWrite k pre := by
  unfold lastWrite
  rw [List.reverse_append, List.reverse_singleton, List.singleton_append, List.find?_cons]
  cases h : (a.isSetOf k || a.isDeleteOf k) <;> simp

theorem expired_mono (item : Item V) {t now : Time} (h : t ≤ now)
    (he : item.expired t = true) : item.expired now = true := by
  obtain ⟨e, hx, hlt⟩ := (expired_iff item t).1 he
  exact (expired_iff item now).2 ⟨e, hx, lt_of_lt_of_le hlt h⟩

/-- The entry of `k` in the store that never prunes is the one written by the most
recent `Set` or `Delete` on `k`. -/
theorem lookup_runNoPrune (pre : List (Call K V)) (k : K) :
    ((New : Cache K V).runNoPrune pre).items.lookup k = (lastWrite k pre).bind Call.written := by
  induction pre using List.reverseRecOn with
  | nil => exact lookup_New k
  | append_singleton pre a ih =>
    rw [runNoPrune_append, lastWrite_append]
    cases a with
    | Set key value ttl now =>
      by_cases h : key = k
      · subst h
        simp [Cache.callNoPrune, Call.isSetOf, Call.written, lookup_Set_self, Time.Add]
      · have hne : k ≠ key := fun e => h e.symm
        simp [Cache.callNoPrune, Call.isSetOf, Call.isDeleteOf, h, lookup_Set_of_ne _ hne, ih]
    | Delete key =>
      by_cases h : key = k
      · subst h
        simp [Cache.callNoPrune, Call.isDeleteOf, Call.written, lookup_Delete_self]
      · have hne : k ≠ key := fun e => h e.symm
        simp [Cache.callNoPrune, Call.isSetOf, Call.isDeleteOf, h, lookup_Delete_of_ne _ hne, ih]
    | Get key now => simpa [Cache.callNoPrune, Call.isSetOf, Call.isDeleteOf] using ih
    | Keys => simpa [Cache.callNoPrune, Call.isSetOf, Call.isDeleteOf] using ih
    | Len => simpa [Cache.callNoPrune, Call.isSetOf, Call.isDeleteOf] using ih

/-- One call keeps the store and the store that never prunes in agreement up to
entries that are expired at `now`, provided the call is not made after `now`. -/
theorem call_agree [Inhabited V] (R F : Cache K V) (a : Call K V) (now : Time)
    (ha : ∀ key t, a = Call.Get key t → t ≤ now)
    (h : ∀ x, R.items.lookup x = F.items.lookup x ∨
      (R.items.lookup x = none ∧
        ∃ item, F.items.lookup x = some item ∧ item.expired now = true)) :
    ∀ x, (R.call a).items.lookup x = (F.callNoPrune a).items.lookup x ∨
      ((R.call a).items.lookup x = none ∧
        ∃ item, (F.callNoPrune a).items.lookup x = some item ∧ item.expired now = true) := by
  intro x
  cases a with
  | Set key value ttl t =>
    show (R.Set key value ttl t).items.lookup x = (F.Set key value ttl t).items.lookup x ∨ _
    by_cases hx : x = key
    · subst hx
      left
      rw [lookup_Set_self, lookup_Set_self]
    · show _ ∨ ((R.Set key value ttl t).items.lookup x = none ∧
        ∃ item, (F.Set key value ttl t).items.lookup x = some item ∧ item.expired now = true)
      rw [lookup_Set_of_ne R hx, lookup_Set_of_ne F hx]
      exact h x
  | Delete key =>
    show (R.Delete key).items.lookup x = (F.Delete key).items.lookup x ∨
      ((R.Delete key).items.lookup x = none ∧
        ∃ item, (F.Delete key).items.lookup x = some item ∧ item.expired now = true)
    by_cases hx : x = key
    · subst hx
      left
      rw [lookup_Delete_self, lookup_Delete_self]
    · rw [lookup_Delete_of_ne R hx, lookup_Delete_of_ne F hx]
      exact h x
  | Get key t =>
    show (R.Get key t).2.items.lookup x = F.items.lookup x ∨
      ((R.Get key t).2.items.lookup x = none ∧
        ∃ item, F.items.lookup x = some item ∧ item.expired now = true)
    by_cases hx : x = key
    · subst hx
      cases hl : R.items.lookup x with
      | none =>
        rw [Get_of_lookup_none R x t hl]
        exact h x
      | some item =>
        by_cases he : item.expired t = true
        · right
          rw [Get_of_expired R x t item hl he]
          refine ⟨lookup_Delete_self R x, item, ?_, expired_mono item (ha x t rfl) he⟩
          rcases h x with h1 | h1
          · rw [← h1, hl]
          · rw [hl] at h1
            exact Option.noConfusion h1.1
        · have he' : item.expired t = false := by simpa using he
          rw [Get_of_not_expired R x t item hl he']
          exact h x
    · rw [lookup_Get_of_ne R hx t]
      exact h x
  | Keys => exact h x
  | Len => exact h x

/-- Calls none of which is a `Get` made after `now` keep the store and the store
that never prunes in agreement up to entries that are expired at `now`. -/
theorem run_agree [Inhabited V] (calls : List (Call K V)) (R F : Cache K V) (now : Time)
    (hc : ∀ a ∈ calls, ∀ key t, a = Call.Get key t → t ≤ now)
    (h : ∀ x, R.items.lookup x = F.items.lookup x ∨
      (R.items.lookup x = none ∧
        ∃ item, F.items.lookup x = some item ∧ item.expired now = true)) :
    ∀ x, (R.run calls).items.lookup x = (F.runNoPrune calls).items.lookup x ∨
      ((R.run calls).items.lookup x = none ∧
        ∃ item, (F.runNoPrune calls).items.lookup x = some item ∧
          item.expired now = true) := by
  induction calls generalizing R F with
  | nil => exact h
  | cons a rest ih =>
    exact ih (R.call a) (F.callNoPrune a) (fun b hb => hc b (List.mem_cons_of_mem a hb))
      (call_agree R F a now (hc a (List.mem_cons_self a rest)) h)

/-- A `Get` at `now` returns the same on two stores that agree up to entries that
are expired at `now`. -/
theorem Get_eq_GetNoPrune_of_agree [Inhabited V] (R F : Cache K V) (k : K) (now : Time)
    (h : R.items.lookup k = F.items.lookup k ∨
      (R.items.lookup k = none ∧
        ∃ item, F.items.lookup k = some item ∧ item.expired now = true)) :
    (R.Get k now).1 = F.GetNoPrune k now := by
  rcases h with h | ⟨h1, item, h2, he⟩
  · unfold Cache.Get Cache.GetNoPrune
    rw [h]
    cases F.items.lookup k with
    | none => rfl
    | some item =>
      by_cases he : item.expired now = true
      · simp [he]
      · simp [he]
  · rw [Get_of_lookup_none R k now h1]
    unfold Cache.GetNoPrune
    simp [h2, he]

theorem GetNoPrune_eq_refGet [Inhabited V] (pre : List (Call K V)) (k : K) (now : Time) :
    ((New : Cache K V).runNoPrune pre).GetNoPrune k now = refGet pre k now := by
  unfold Cache.GetNoPrune refGet
  rw [lookup_runNoPrune]
  cases lastWrite k pre with
  | none => rfl
  | some a =>
    cases a with
    | Set key value ttl t0 =>
      by_cases httl : ttl > 0
      · simp [Call.written, Item.expired, httl]
      · simp [Call.written, Item.expired, httl]
    | Delete key => rfl
    | Get key t => rfl
    | Keys => rfl
    | Len => rfl

theorem reading_le_of_pairwise (pre : List (Call K V)) (k : K) (now : Time)
    (hmono : (readings (pre ++ [Call.Get k now])).Pairwise (fun s t => s ≤ t)) :
    ∀ a ∈ pre, ∀ key t, a = Call.Get key t → t ≤ now := by
  intro a ha key t hat
  have hr : readings (pre ++ [Call.Get k now]) = readings pre ++ [now] := by
    simp [readings, List.filterMap_append, Call.reading]
  rw [hr, List.pairwise_append] at hmono
  apply hmono.2.2 t _ now (List.mem_singleton_self now)
  unfold readings
  rw [List.mem_filterMap]
  exact ⟨a, ha, by rw [hat]; rfl⟩

/-- C19: in a sequence of `Set`, `Delete` and `Get` calls (and `Keys`, `Len`) made on
a new store with non-decreasing clock readings, every `Get(k)`, made at `now` after
the calls `pre`, returns what it returns on the store that never prunes, which is
`(v, true)` when the most recent `Set` or `Delete` on `k` is a `Set(k, v, ttl)` read
at `t0` with `ttl ≤ 0` or with `t0 + ttl` not before `now`, and the zero value and
`false` otherwise. -/
theorem Get_refines_no_prune [Inhabited V] (pre : List (Call K V)) (k : K) (now : Time)
    (hmono : (readings (pre ++ [Call.Get k now])).Pairwise (fun s t => s ≤ t)) :
    (((New : Cache K V).run pre).Get k now).1
        = ((New : Cache K V).runNoPrune pre).GetNoPrune k now ∧
      (((New : Cache K V).run pre).Get k now).1 = refGet pre k now := by
  have h := Get_eq_GetNoPrune_of_agree _ _ k now
    (run_agree pre (New : Cache K V) New now (reading_le_of_pairwise pre k now hmono)
      (fun _ => Or.inl rfl) k)
  exact ⟨h, h.trans (GetNoPrune_eq_refGet pre k now)⟩

/-- Witness of C19: the entry of `"a"` is pruned by the `Get` at reading `10`, and
read again at reading `20` after calls on `"b"`. -/
theorem Get_refines_no_prune_witness :
    (((New : Cache String Int).run
          [Call.Set "a" 1 5 0, Call.Get "a" 10, Call.Set "b" 2 0 11, Call.Delete "b",
            Call.Len]).Get "a" 20).1
        = ((New : Cache String Int).runNoPrune
          [Call.Set "a" 1 5 0, Call.Get "a" 10, Call.Set "b" 2 0 11, Call.Delete "b",
            Call.Len]).GetNoPrune "a" 20 ∧
      (((New : Cache String Int).run
          [Call.Set "a" 1 5 0, Call.Get "a" 10, Call.Set "b" 2 0 11, Call.Delete "b",
            Call.Len]).Get "a" 20).1
        = refGet ([Call.Set "a" 1 5 0, Call.Get "a" 10, Call.Set "b" 2 0 11, Call.Delete "b",
            Call.Len] : List (Call String Int)) "a" 20 :=
  Get_refines_no_prune
    [Call.Set "a" 1 5 0, Call.Get "a" 10, Call.Set "b" 2 0 11, Call.Delete "b", Call.Len]
    "a" 20 (by decide)

/-! ## The mutex -/

theorem wellLocked_append (l1 l2 : List Step) (held : Bool) (h1 : wellLocked held l1 = true)
    (h2 : wellLocked false l2 = true) : wellLocked held (l1 ++ l2) = true := by
  induction l1 generalizing held with
  | nil =>
    have hh : held = false := by simpa [wellLocked] using h1
    rw [hh]
    exact h2
  | cons a rest ih =>
    simp only [List.cons_append, wellLocked] at h1 ⊢
    cases ha : a.after held with
    | none => simp [ha] at h1
    | some h =>
      simp only [ha] at h1 ⊢
      exact ih h h1

theorem GetSteps_cases (c : Cache K V) (key : K) (now : Time) :
    c.GetSteps key now = [Step.lock, Step.read, Step.unlock] ∨
      c.GetSteps key now = [Step.lock, Step.read, Step.now, Step.delete, Step.unlock] ∨
      c.GetSteps key now = [Step.lock, Step.read, Step.now, Step.unlock] := by
  unfold Cache.GetSteps
  split
  · exact Or.inl rfl
  · split
    · exact Or.inl rfl
    · split
      · exact Or.inr (Or.inl rfl)
      · exact Or.inr (Or.inr rfl)

theorem wellLocked_GetSteps (c : Cache K V) (key : K) (now : Time) :
    wellLocked false (c.GetSteps key now) = true := by
  rcases GetSteps_cases c key now with h | h | h <;> rw [h] <;> rfl

theorem wellLocked_SetSteps (ttl : Duration) : wellLocked false (Cache.SetSteps ttl) = true := by
  unfold Cache.SetSteps
  by_cases h : ttl > 0
  · simp only [h, if_true]
    rfl
  · simp only [h, if_false]
    rfl

theorem wellLocked_callSteps (c : Cache K V) (a : Call K V) :
    wellLocked false (c.callSteps a) = true := by
  cases a with
  | Set key value ttl now => exact wellLocked_SetSteps ttl
  | Delete key => rfl
  | Get key now => exact wellLocked_GetSteps c key now
  | Keys => rfl
  | Len => rfl

theorem wellLocked_programOf (calls : List (Cache K V × Call K V)) :
    wellLocked false (programOf calls) = true := by
  induction calls with
  | nil => rfl
  | cons p rest ih =>
    unfold programOf at ih ⊢
    rw [List.flatMap_cons]
    exact wellLocked_append _ _ false (wellLocked_callSteps p.1 p.2) ih

theorem lockedThroughout_GetSteps (c : Cache K V) (key : K) (now : Time) :
    lockedThroughout (c.GetSteps key now) = true := by
  rcases GetSteps_cases c key now with h | h | h <;> rw [h] <;> decide

theorem Safe_init (programs : Nat → List Step) (h : ∀ i, wellLocked false (programs i) = true) :
    (Sched.init programs).Safe := by
  refine ⟨h, ?_, ?_⟩
  · intro i j hi
    exact Bool.noConfusion hi
  · constructor
    · intro hl
      exact Bool.noConfusion hl
    · rintro ⟨i, hi⟩
      exact Bool.noConfusion hi

/-- A step that keeps the flag of the goroutine keeps the invariant. -/
theorem Safe_update_same (s : Sched) (hs : s.Safe) (i : Nat) (rest : List Step)
    (hw : wellLocked (s.goroutines i).1 rest = true) :
    Sched.Safe { locked := s.locked,
                 goroutines := Function.update s.goroutines i ((s.goroutines i).1, rest) } := by
  obtain ⟨h1, h2, h3⟩ := hs
  have hflag : ∀ j, (Function.update s.goroutines i ((s.goroutines i).1, rest) j).1
      = (s.goroutines j).1 := by
    intro j
    by_cases hj : j = i
    · subst hj
      rw [Function.update_same]
    · rw [Function.update_noteq hj]
  refine ⟨?_, ?_, ?_⟩
  · intro j
    by_cases hj : j = i
    · subst hj
      simp only [Function.update_same]
      exact hw
    · simp only [Function.update_noteq hj]
      exact h1 j
  · intro j k hj hk
    simp only [hflag] at hj hk
    exact h2 j k hj hk
  · simp only [hflag]
    exact h3

theorem Safe_step (s : Sched) (hs : s.Safe) (i : Nat) : (s.step i).Safe := by
  have hs' := hs
  obtain ⟨h1, h2, h3⟩ := hs'
  have hw := h1 i
  unfold Sched.step
  cases hg : s.goroutines i with
  | mk inside steps =>
    rw [hg] at hw
    cases steps with
    | nil => exact hs
    | cons a rest =>
      have hsame : ∀ r : List Step, wellLocked inside r = true →
          Sched.Safe { locked := s.locked,
                       goroutines := Function.update s.goroutines i (inside, r) } := by
        intro r hr
        have := Safe_update_same s hs i r (by rw [hg]; exact hr)
        rw [hg] at this
        exact this
      cases a with
      | lock =>
        cases hl : s.locked with
        | true => simpa [hl] using hs
        | false =>
          have hnone : ∀ j, (s.goroutines j).1 = false := by
            intro j
            cases hj : (s.goroutines j).1 with
            | false => rfl
            | true =>
              have := h3.2 ⟨j, hj⟩
              rw [hl] at this
              exact Bool.noConfusion this
          have hrest : wellLocked true rest = true := by
            cases inside <;> simp [wellLocked, Step.after] at hw
            exact hw
          simp only [Bool.false_eq_true, if_false]
          refine ⟨?_, ?_, ?_⟩
          · intro j
            by_cases hj : j = i
            · subst hj
              simp only [Function.update_same]
              exact hrest
            · simp only [Function.update_noteq hj]
              exact h1 j
          · intro j k hj hk
            dsimp only at hj hk
            by_cases hji : j = i
            · by_cases hki : k = i
              · rw [hji, hki]
              · rw [Function.update_noteq hki, hnone k] at hk
                exact Bool.noConfusion hk
            · rw [Function.update_noteq hji, hnone j] at hj
              exact Bool.noConfusion hj
          · constructor
            · intro _
              exact ⟨i, by simp only [Function.update_same]⟩
            · intro _
              rfl
      | unlock =>
        have hin : inside = true ∧ wellLocked false rest = true := by
          cases inside <;> simp [wellLocked, Step.after] at hw
          exact ⟨rfl, hw⟩
        have hi : (s.goroutines i).1 = true := by rw [hg]; exact hin.1
        show Sched.Safe
          { locked := false, goroutines := Function.update s.goroutines i (false, rest) }
        refine ⟨?_, ?_, ?_⟩
        · intro j
          by_cases hj : j = i
          · subst hj
            simp only [Function.update_same]
            exact hin.2
          · simp only [Function.update_noteq hj]
            exact h1 j
        · intro j k hj hk
          dsimp only at hj
          by_cases hji : j = i
          · subst hji
            simp only [Function.update_same] at hj
            exact Bool.noConfusion hj
          · rw [Function.update_noteq hji] at hj
            exact absurd (h2 j i hj hi) hji
        · constructor
          · intro hl
            exact Bool.noConfusion hl
          · rintro ⟨j, hj⟩
            dsimp only at hj
            by_cases hji : j = i
            · subst hji
              simp only [Function.update_same] at hj
              exact Bool.noConfusion hj
            · rw [Function.update_noteq hji] at hj
              exact absurd (h2 j i hj hi) hji
      | now => exact hsame rest (by simpa [wellLocked, Step.after] using hw)
      | read =>
        exact hsame rest (by cases inside <;> simp [wellLocked, Step.after] at hw ⊢; exact hw)
      | write =>
        exact hsame rest (by cases inside <;> simp [wellLocked, Step.after] at hw ⊢; exact hw)
      | delete =>
        exact hsame rest (by cases inside <;> simp [wellLocked, Step.after] at hw ⊢; exact hw)
      | len =>
        exact hsame rest (by cases inside <;> simp [wellLocked, Step.after] at hw ⊢; exact hw)
      | range =>
        exact hsame rest (by cases inside <;> simp [wellLocked, Step.after] at hw ⊢; exact hw)

theorem Safe_run (schedule : List Nat) (s : Sched) (hs : s.Safe) : (s.run schedule).Safe := by
  induction schedule generalizing s with
  | nil => exact hs
  | cons i rest ih => exact ih (s.step i) (Safe_step s hs i)

theorem inside_of_access (inside : Bool) (a : Step) (rest : List Step)
    (ha : a.isAccess = true) (hw : wellLocked inside (a :: rest) = true) : inside = true := by
  cases inside with
  | true => rfl
  | false => cases a <;> simp [wellLocked, Step.after, Step.isAccess] at hw ha

/-- C12 (as stated, refuted): the steps of `Set` with a `ttl` of `1` start with the
reading of the clock, made before the mutex is taken, so that the mutex is not held
for the full duration of the call; and when a goroutine that makes this `Set` runs
next to one that makes a `Delete`, it reads the clock while the other one is
between its `Lock` and its `Unlock`. -/
theorem Set_reads_clock_unlocked :
    Cache.SetSteps 1 = [Step.now, Step.lock, Step.write, Step.unlock] ∧
      lockedThroughout (Cache.SetSteps 1) = false ∧
      ((Sched.init fun i =>
          if i = 0 then Cache.SetSteps 1 else if i = 1 then Cache.DeleteSteps else []).run
            [1, 0]).goroutines 1 = (true, [Step.delete, Step.unlock]) ∧
      ((Sched.init fun i =>
          if i = 0 then Cache.SetSteps 1 else if i = 1 then Cache.DeleteSteps else []).run
            [1, 0]).goroutines 0 = (false, [Step.lock, Step.write, Step.unlock]) := by
  decide

/-- C12 (amended): `Get`, `Delete`, `Keys` and `Len` take the mutex as their first
step and release it as their last, on every exit path, and `Set` does so after it
has read the clock; every call makes its accesses to the map with the mutex held
and ends with the mutex released; so, for goroutines that each make any calls, after
any interleaving at most one goroutine is between a `Lock` and its `Unlock`, a
goroutine about to access the map is that one and the mutex is locked, and the
mutex is free once no goroutine has a step left. -/
theorem lock_discipline (c : Cache K V) (key : K) (now : Time) (ttl : Duration)
    (programs : Nat → List (Cache K V × Call K V)) (schedule : List Nat) :
    (lockedThroughout (c.GetSteps key now) = true ∧
        lockedThroughout Cache.DeleteSteps = true ∧
        lockedThroughout Cache.KeysSteps = true ∧
        lockedThroughout Cache.LenSteps = true ∧
        lockedThroughout ((Cache.SetSteps ttl).dropWhile fun a => a == Step.now) = true) ∧
      (∀ a : Call K V, wellLocked false (c.callSteps a) = true) ∧
      (∀ i j,
        (((Sched.init fun n => programOf (programs n)).run schedule).goroutines i).1 = true →
        (((Sched.init fun n => programOf (programs n)).run schedule).goroutines j).1 = true →
        i = j) ∧
      (∀ i a rest,
        (((Sched.init fun n => programOf (programs n)).run schedule).goroutines i).2
          = a :: rest →
        a.isAccess = true →
        ((Sched.init fun n => programOf (programs n)).run schedule).locked = true ∧
          (((Sched.init fun n => programOf (programs n)).run schedule).goroutines i).1 = true ∧
          ∀ j, j ≠ i →
            (((Sched.init fun n => programOf (programs n)).run schedule).goroutines j).1
              = false) ∧
      ((∀ i, (((Sched.init fun n => programOf (programs n)).run schedule).goroutines i).2 = []) →
        ((Sched.init fun n => programOf (programs n)).run schedule).locked = false) := by
  have hsafe : ((Sched.init fun n => programOf (programs n)).run schedule).Safe :=
    Safe_run schedule _ (Safe_init _ fun n => wellLocked_programOf (programs n))
  obtain ⟨h1, h2, h3⟩ := hsafe
  refine ⟨⟨lockedThroughout_GetSteps c key now, by decide, by decide, by decide, ?_⟩,
    wellLocked_callSteps c, h2, ?_, ?_⟩
  · unfold Cache.SetSteps
    by_cases h : ttl > 0
    · simp only [h, if_true]
      decide
    · simp only [h, if_false]
      decide
  · intro i a rest hi ha
    have hw := h1 i
    rw [hi] at hw
    have hin := inside_of_access _ a rest ha hw
    refine ⟨h3.2 ⟨i, hin⟩, hin, ?_⟩
    intro j hj
    cases hjf : (((Sched.init fun n => programOf (programs n)).run schedule).goroutines j).1 with
    | false => rfl
    | true => exact absurd (h2 j i hjf hin) hj
  · intro hall
    cases hl : ((Sched.init fun n => programOf (programs n)).run schedule).locked with
    | false => rfl
    | true =>
      obtain ⟨i, hi⟩ := h3.1 hl
      have hw := h1 i
      rw [hall i, hi] at hw
      simp [wellLocked] at hw

end cache
